import Mathlib

/-!
Verification development for the temperature-converter program
(`src/main.rs`).  Rust strings are modelled as `List Char` (Unicode scalar
values); UTF-8 byte positions are recovered through `utf8Len`.  Rust `f64`
values are modelled by `F64`: exact rational magnitudes plus the
non-finite values `inf`, `neginf` and `nan` (IEEE rounding and signed
zeros are outside the model; all arithmetic on finite values is exact).
A Rust panic is modelled by `Option`: `none` is a panic, `some r` a
normal return of `r`.
-/

set_option maxHeartbeats 1000000

/-- UTF-8 byte length of one Unicode scalar value (model of Rust
`char::len_utf8`). -/
def utf8Len (c : Char) : Nat :=
  if c.toNat < 0x80 then 1
  else if c.toNat < 0x800 then 2
  else if c.toNat < 0x10000 then 3
  else 4

/-- UTF-8 byte length of a string given as a list of scalar values
(model of Rust `str::len`). -/
def utf8ListLen (l : List Char) : Nat :=
  (l.map utf8Len).sum

/-- Model of Rust `char::is_whitespace`: the Unicode `White_Space`
property. -/
def isRustWhitespace (c : Char) : Bool :=
  (0x9 ≤ c.toNat && c.toNat ≤ 0xd) || c.toNat = 0x20 || c.toNat = 0x85 ||
  c.toNat = 0xa0 || c.toNat = 0x1680 ||
  (0x2000 ≤ c.toNat && c.toNat ≤ 0x200a) ||
  c.toNat = 0x2028 || c.toNat = 0x2029 || c.toNat = 0x202f ||
  c.toNat = 0x205f || c.toNat = 0x3000

/-- Model of Rust `str::trim`: drop leading and trailing whitespace. -/
def trimList (l : List Char) : List Char :=
  ((l.dropWhile isRustWhitespace).reverse.dropWhile isRustWhitespace).reverse

/-- ASCII decimal digit (the digits accepted by Rust's float grammar). -/
def isDigitC (c : Char) : Bool :=
  0x30 ≤ c.toNat && c.toNat ≤ 0x39

/-- Model of Rust `str::to_uppercase`, character by character.  Restricted
to the ASCII case mapping (characters without an ASCII case mapping are
left unchanged); this is exact for every character appearing in the
development, since none of them has a non-ASCII case mapping. -/
def rustToUpper (c : Char) : Char :=
  if h : 0x61 ≤ c.toNat ∧ c.toNat ≤ 0x7a then
    ⟨UInt32.ofNat (c.toNat - 0x20), by
      refine Or.inl ?_
      have e : (UInt32.ofNat (c.toNat - 0x20)).toNat = (c.toNat - 0x20) % 2 ^ 32 := rfl
      rw [e]
      omega⟩
  else c

/-- ASCII lower-casing, used to model the case-insensitive `inf` /
`infinity` / `nan` spellings of Rust's float grammar. -/
def asciiLower (c : Char) : Char :=
  if h : 0x41 ≤ c.toNat ∧ c.toNat ≤ 0x5a then
    ⟨UInt32.ofNat (c.toNat + 0x20), by
      refine Or.inl ?_
      have e : (UInt32.ofNat (c.toNat + 0x20)).toNat = (c.toNat + 0x20) % 2 ^ 32 := rfl
      rw [e]
      omega⟩
  else c

/-- Model of Rust `str::split_at` on a byte index: `none` models the
panic raised when the index is not on a character boundary (or is past
the end). -/
def splitAtByte : Nat → List Char → Option (List Char × List Char)
  | 0, l => some ([], l)
  | _ + 1, [] => none
  | n + 1, c :: cs =>
      if n + 1 < utf8Len c then none
      else
        match splitAtByte (n + 1 - utf8Len c) cs with
        | none => none
        | some (a, b) => some (c :: a, b)

/-- The last two characters of a string, in order (second-to-last,
last). -/
def lastTwo (l : List Char) : Option (Char × Char) :=
  match l.reverse with
  | b :: a :: _ => some (a, b)
  | _ => none

/-- Model of Rust `f64`: an exact rational magnitude or one of the
non-finite values.  IEEE rounding and signed zeros are outside the
model; arithmetic on finite values is exact, and the non-finite values
propagate as in IEEE 754. -/
inductive F64 where
  | finite (q : ℚ)
  | inf
  | neginf
  | nan
deriving DecidableEq, Repr

namespace F64

def add : F64 → F64 → F64
  | nan, _ => nan
  | _, nan => nan
  | inf, neginf => nan
  | neginf, inf => nan
  | inf, _ => inf
  | neginf, _ => neginf
  | finite _, inf => inf
  | finite _, neginf => neginf
  | finite a, finite b => finite (a + b)

def neg : F64 → F64
  | finite q => finite (-q)
  | inf => neginf
  | neginf => inf
  | nan => nan

/-- IEEE subtraction coincides with adding the negation. -/
def sub (a b : F64) : F64 := add a (neg b)

def mul : F64 → F64 → F64
  | nan, _ => nan
  | _, nan => nan
  | finite a, finite b => finite (a * b)
  | finite a, inf => if a = 0 then nan else if 0 < a then inf else neginf
  | finite a, neginf => if a = 0 then nan else if 0 < a then neginf else inf
  | inf, finite b => if b = 0 then nan else if 0 < b then inf else neginf
  | neginf, finite b => if b = 0 then nan else if 0 < b then neginf else inf
  | inf, inf => inf
  | inf, neginf => neginf
  | neginf, inf => neginf
  | neginf, neginf => inf

def div : F64 → F64 → F64
  | nan, _ => nan
  | _, nan => nan
  | finite a, finite b =>
      if b = 0 then (if a = 0 then nan else if 0 < a then inf else neginf)
      else finite (a / b)
  | finite _, inf => finite 0
  | finite _, neginf => finite 0
  | inf, finite b => if 0 ≤ b then inf else neginf
  | neginf, finite b => if 0 ≤ b then neginf else inf
  | inf, inf => nan
  | inf, neginf => nan
  | neginf, inf => nan
  | neginf, neginf => nan

def abs : F64 → F64
  | finite q => finite |q|
  | nan => nan
  | _ => inf

/-- IEEE `≤`: false whenever one operand is NaN. -/
def le : F64 → F64 → Bool
  | nan, _ => false
  | _, nan => false
  | neginf, _ => true
  | _, inf => true
  | inf, finite _ => false
  | inf, neginf => false
  | finite _, neginf => false
  | finite a, finite b => decide (a ≤ b)

end F64

/-- `|x - y| ≤ tol` in the `F64` comparison semantics (false whenever
the difference is NaN). -/
def approxEq (x y : F64) (tol : ℚ) : Bool :=
  F64.le (F64.abs (F64.sub x y)) (F64.finite tol)

/-- Optional leading sign of Rust's float grammar (`true` = negative). -/
def stripSign (l : List Char) : Bool × List Char :=
  match l with
  | [] => (false, [])
  | c :: r =>
      if c = '-' then (true, r)
      else if c = '+' then (false, r)
      else (false, c :: r)

/-- Value of a list of decimal digits. -/
def digitsToNat (l : List Char) : Nat :=
  l.foldl (fun n c => 10 * n + (c.toNat - 0x30)) 0

/-- The optional exponent part of Rust's float grammar:
`('e'|'E') Sign? Digit+`, which must consume the rest of the input. -/
def parseExp (l : List Char) : Option Int :=
  match l with
  | [] => some 0
  | c :: r =>
      if c = 'e' ∨ c = 'E' then
        let s := stripSign r
        let ds := s.2.takeWhile isDigitC
        let rest := s.2.dropWhile isDigitC
        if ds.isEmpty || !rest.isEmpty then none
        else some (if s.1 then -(digitsToNat ds : Int) else (digitsToNat ds : Int))
      else none

/-- Exact rational value of a decimal literal with integer digits `ip`,
fractional digits `fp` and decimal exponent `e`. -/
def decimalValue (ip fp : List Char) (e : Int) : ℚ :=
  ((digitsToNat ip : ℚ) + (digitsToNat fp : ℚ) / (10 : ℚ) ^ fp.length)
    * (10 : ℚ) ^ e

/-- The `Number` production of Rust's float grammar:
`(Digit+ | Digit+ '.' Digit* | Digit* '.' Digit+) Exp?`, evaluated
exactly over the rationals. -/
def parseNumber (l : List Char) : Option ℚ :=
  let ip := l.takeWhile isDigitC
  let r1 := l.dropWhile isDigitC
  match r1 with
  | '.' :: r =>
      let fp := r.takeWhile isDigitC
      let r2 := r.dropWhile isDigitC
      if ip.isEmpty && fp.isEmpty then none
      else (parseExp r2).map fun e => decimalValue ip fp e
  | _ =>
      if ip.isEmpty then none
      else (parseExp r1).map fun e => decimalValue ip [] e

/-- Model of Rust `f64::from_str`:
`Sign? ('inf' | 'infinity' | 'nan' | Number)`, with the alphabetic
spellings matched ASCII-case-insensitively.  Finite results are exact
rationals (the model omits IEEE rounding to the nearest double). -/
def parseF64 (l : List Char) : Option F64 :=
  let s := stripSign l
  let low := s.2.map asciiLower
  if low = ['i', 'n', 'f'] ∨ low = ['i', 'n', 'f', 'i', 'n', 'i', 't', 'y'] then
    some (if s.1 then F64.neginf else F64.inf)
  else if low = ['n', 'a', 'n'] then some F64.nan
  else (parseNumber s.2).map fun q => F64.finite (if s.1 then -q else q)

/-- The three temperature scales (from `enum Scale`). -/
inductive Scale where
  | Celsius
  | Fahrenheit
  | Kelvin
deriving DecidableEq, Repr

/-- The parse-error tags (from `enum TemperatureErrorKind`). -/
inductive TemperatureErrorKind where
  | NotNumeric
  | ScaleUnknown
  | Inconvertible
deriving DecidableEq, Repr

/-- The value object built by the parser (from `struct Temperature`). -/
structure Temperature where
  value : F64
  scale : Scale
  convert_to : Scale
deriving DecidableEq, Repr

namespace Temperature

/-- `Temperature::K` (273.15). -/
def K : F64 := .finite (27315 / 100 : ℚ)

/-- `Temperature::f_c`: `(f - 32.0) * 5.0 / 9.0`. -/
def f_c (f : F64) : F64 :=
  F64.div (F64.mul (F64.sub f (.finite 32)) (.finite 5)) (.finite 9)

/-- `Temperature::c_f`: `(c * 9.0 / 5.0) + 32.0`. -/
def c_f (c : F64) : F64 :=
  F64.add (F64.div (F64.mul c (.finite 9)) (.finite 5)) (.finite 32)

/-- `Temperature::c_k`: `c + k`. -/
def c_k (c k : F64) : F64 := F64.add c k

/-- `Temperature::convert`. -/
def convert (t : Temperature) : F64 :=
  match t.scale, t.convert_to with
  | .Celsius, .Kelvin => c_k t.value K
  | .Celsius, .Fahrenheit => c_f t.value
  | .Fahrenheit, .Celsius => f_c t.value
  | .Fahrenheit, .Kelvin => c_k (f_c t.value) K
  | .Kelvin, .Celsius => c_k t.value (F64.neg K)
  | .Kelvin, .Fahrenheit => c_f (c_k t.value (F64.neg K))
  | _, _ => t.value

end Temperature

/-- Conversion function written from the SPEC's formula table, for the
refinement claim: Celsius→Fahrenheit `value * 9/5 + 32`,
Celsius→Kelvin `value + K_OFFSET`, Fahrenheit→Celsius
`(value - 32) * 5/9`, Fahrenheit→Kelvin `(value - 32) * 5/9 + K_OFFSET`,
Kelvin→Celsius `value - K_OFFSET`, Kelvin→Fahrenheit
`(value - K_OFFSET) * 9/5 + 32`, any other pair the value unchanged. -/
def convertSpec (t : Temperature) : F64 :=
  match t.scale, t.convert_to with
  | .Celsius, .Fahrenheit =>
      F64.add (F64.div (F64.mul t.value (.finite 9)) (.finite 5)) (.finite 32)
  | .Celsius, .Kelvin => F64.add t.value (.finite (27315 / 100 : ℚ))
  | .Fahrenheit, .Celsius =>
      F64.div (F64.mul (F64.sub t.value (.finite 32)) (.finite 5)) (.finite 9)
  | .Fahrenheit, .Kelvin =>
      F64.add (F64.div (F64.mul (F64.sub t.value (.finite 32)) (.finite 5)) (.finite 9))
        (.finite (27315 / 100 : ℚ))
  | .Kelvin, .Celsius => F64.sub t.value (.finite (27315 / 100 : ℚ))
  | .Kelvin, .Fahrenheit =>
      F64.add
        (F64.div (F64.mul (F64.sub t.value (.finite (27315 / 100 : ℚ))) (.finite 9)) (.finite 5))
        (.finite 32)
  | _, _ => t.value

/-- The `match scales` table of `Temperature::from_str`: the six
recognized two-letter suffixes. -/
def matchScales (scales : List Char) : Option (Scale × Scale) :=
  if scales = ['C', 'F'] then some (.Celsius, .Fahrenheit)
  else if scales = ['C', 'K'] then some (.Celsius, .Kelvin)
  else if scales = ['F', 'C'] then some (.Fahrenheit, .Celsius)
  else if scales = ['F', 'K'] then some (.Fahrenheit, .Kelvin)
  else if scales = ['K', 'C'] then some (.Kelvin, .Celsius)
  else if scales = ['K', 'F'] then some (.Kelvin, .Fahrenheit)
  else none

/-- Outcome of one call to the parser: Rust's
`Result<Temperature, ParseTemperatureError>`. -/
inductive ParseResult where
  | ok (t : Temperature)
  | err (e : TemperatureErrorKind)
deriving DecidableEq, Repr

/-- Model of `Temperature::from_str`.  The outer `Option` models
panics: `none` is the panic of `str::split_at` when the byte index
`len - 2` (computed on the trimmed token before upper-casing) is not a
character boundary of the upper-cased token. -/
def fromStr (token : List Char) : Option ParseResult :=
  let temp := trimList token
  if temp = [] then some (.err .Inconvertible)
  else if utf8ListLen temp = 1 then
    some (match parseF64 temp with
      | some _ => .err .ScaleUnknown
      | none => .err .NotNumeric)
  else
    let scalesIndex := utf8ListLen temp - 2
    let upper := temp.map rustToUpper
    match splitAtByte scalesIndex upper with
    | none => none
    | some (value, scales) =>
        match matchScales scales with
        | none => some (.err .ScaleUnknown)
        | some p =>
            match parseF64 value with
            | some v => some (.ok ⟨v, p.1, p.2⟩)
            | none => some (.err .NotNumeric)

/-- Two tokens that agree up to ASCII letter case, character by
character. -/
def caseEquiv (s t : List Char) : Prop :=
  List.Forall₂ (fun a b => rustToUpper a = rustToUpper b) s t

/-- Convert a value with the pair `a → b`, then convert the result with
the inverse pair `b → a`. -/
def roundTrip (a b : Scale) (v : F64) : F64 :=
  Temperature.convert ⟨Temperature.convert ⟨v, a, b⟩, b, a⟩

/-! ### Helper lemmas -/

theorem toNat_rustToUpper (c : Char) :
    (rustToUpper c).toNat =
      if 0x61 ≤ c.toNat ∧ c.toNat ≤ 0x7a then c.toNat - 0x20 else c.toNat := by
  unfold rustToUpper
  split
  · next h =>
      have e : (UInt32.ofNat (c.toNat - 0x20)).toNat = (c.toNat - 0x20) % 2 ^ 32 := rfl
      show (UInt32.ofNat (c.toNat - 0x20)).toNat = _
      rw [e]
      omega
  · next h => rfl

theorem toNat_asciiLower (c : Char) :
    (asciiLower c).toNat =
      if 0x41 ≤ c.toNat ∧ c.toNat ≤ 0x5a then c.toNat + 0x20 else c.toNat := by
  unfold asciiLower
  split
  · next h =>
      have e : (UInt32.ofNat (c.toNat + 0x20)).toNat = (c.toNat + 0x20) % 2 ^ 32 := rfl
      show (UInt32.ofNat (c.toNat + 0x20)).toNat = _
      rw [e]
      omega
  · next h => rfl

theorem charEq_of_toNat (a b : Char) (h : a.toNat = b.toNat) : a = b :=
  Char.ext (UInt32.ext h)

theorem utf8Len_pos (c : Char) : 1 ≤ utf8Len c := by
  unfold utf8Len
  split
  · omega
  · split
    · omega
    · split <;> omega

theorem utf8Len_rustToUpper (c : Char) : utf8Len (rustToUpper c) = utf8Len c := by
  unfold utf8Len
  rw [toNat_rustToUpper]
  by_cases h : 0x61 ≤ c.toNat ∧ c.toNat ≤ 0x7a
  · rw [if_pos h]
    have h1 : c.toNat - 0x20 < 0x80 := by omega
    have h2 : c.toNat < 0x80 := by omega
    rw [if_pos h1, if_pos h2]
  · rw [if_neg h]

theorem utf8ListLen_nil : utf8ListLen [] = 0 := rfl

theorem utf8ListLen_cons (c : Char) (l : List Char) :
    utf8ListLen (c :: l) = utf8Len c + utf8ListLen l := by
  simp [utf8ListLen]

theorem utf8ListLen_append (a b : List Char) :
    utf8ListLen (a ++ b) = utf8ListLen a + utf8ListLen b := by
  simp [utf8ListLen]

theorem utf8ListLen_map_rustToUpper (l : List Char) :
    utf8ListLen (l.map rustToUpper) = utf8ListLen l := by
  induction l with
  | nil => rfl
  | cons c cs ih =>
      simp only [List.map_cons, utf8ListLen_cons, ih, utf8Len_rustToUpper]

theorem length_le_utf8ListLen (l : List Char) : l.length ≤ utf8ListLen l := by
  induction l with
  | nil => simp [utf8ListLen]
  | cons c cs ih =>
      rw [utf8ListLen_cons]
      have := utf8Len_pos c
      simp only [List.length_cons]
      omega

theorem utf8ListLen_eq_zero (l : List Char) (h : utf8ListLen l = 0) : l = [] := by
  cases l with
  | nil => rfl
  | cons c cs =>
      rw [utf8ListLen_cons] at h
      have := utf8Len_pos c
      omega

/-- A suffix of UTF-8 length 2 is either two one-byte characters or a
single two-byte character. -/
theorem utf8ListLen_two (l : List Char) (h : utf8ListLen l = 2) :
    (∃ c₁ c₂, l = [c₁, c₂] ∧ utf8Len c₁ = 1 ∧ utf8Len c₂ = 1) ∨
      (∃ c, l = [c] ∧ utf8Len c = 2) := by
  match l with
  | [] => simp [utf8ListLen] at h
  | [c] =>
      right
      refine ⟨c, rfl, ?_⟩
      rw [utf8ListLen_cons, utf8ListLen_nil] at h
      omega
  | [c₁, c₂] =>
      left
      refine ⟨c₁, c₂, rfl, ?_, ?_⟩ <;>
        · rw [utf8ListLen_cons, utf8ListLen_cons, utf8ListLen_nil] at h
          have := utf8Len_pos c₁
          have := utf8Len_pos c₂
          omega
  | c₁ :: c₂ :: c₃ :: r =>
      exfalso
      rw [utf8ListLen_cons, utf8ListLen_cons, utf8ListLen_cons] at h
      have := utf8Len_pos c₁
      have := utf8Len_pos c₂
      have := utf8Len_pos c₃
      omega

theorem splitAtByte_zero (l : List Char) : splitAtByte 0 l = some ([], l) := by
  cases l <;> rfl

theorem splitAtByte_eq (n : Nat) (l a b : List Char)
    (h : splitAtByte n l = some (a, b)) : l = a ++ b ∧ utf8ListLen a = n := by
  induction l generalizing n a b with
  | nil =>
      match n with
      | 0 =>
          simp only [splitAtByte, Option.some_inj, Prod.mk.injEq] at h
          obtain ⟨rfl, rfl⟩ := h
          exact ⟨rfl, rfl⟩
      | _ + 1 => simp [splitAtByte] at h
  | cons c cs ih =>
      match n with
      | 0 =>
          simp only [splitAtByte, Option.some_inj, Prod.mk.injEq] at h
          obtain ⟨rfl, rfl⟩ := h
          exact ⟨rfl, rfl⟩
      | m + 1 =>
          rw [splitAtByte] at h
          split at h
          · exact absurd h (by simp)
          · next hlt =>
              match hs : splitAtByte (m + 1 - utf8Len c) cs with
              | none => rw [hs] at h; exact absurd h (by simp)
              | some (a', b') =>
                  rw [hs] at h
                  simp only [Option.some_inj, Prod.mk.injEq] at h
                  obtain ⟨rfl, rfl⟩ := h
                  obtain ⟨he, hlen⟩ := ih (m + 1 - utf8Len c) a' b' hs
                  constructor
                  · rw [he]; rfl
                  · rw [utf8ListLen_cons, hlen]
                    omega

theorem fromStr_empty (token : List Char) (h : trimList token = []) :
    fromStr token = some (.err .Inconvertible) := by
  unfold fromStr
  rw [if_pos h]

theorem fromStr_one (token : List Char) (h1 : trimList token ≠ [])
    (h2 : utf8ListLen (trimList token) = 1) :
    fromStr token =
      some (match parseF64 (trimList token) with
        | some _ => .err .ScaleUnknown
        | none => .err .NotNumeric) := by
  unfold fromStr
  rw [if_neg h1, if_pos h2]

theorem fromStr_split (token : List Char) (h1 : trimList token ≠ [])
    (h2 : utf8ListLen (trimList token) ≠ 1) :
    fromStr token =
      match splitAtByte (utf8ListLen (trimList token) - 2)
          ((trimList token).map rustToUpper) with
      | none => none
      | some (value, scales) =>
          match matchScales scales with
          | none => some (.err .ScaleUnknown)
          | some p =>
              match parseF64 value with
              | some v => some (.ok ⟨v, p.1, p.2⟩)
              | none => some (.err .NotNumeric) := by
  unfold fromStr
  rw [if_neg h1, if_neg h2]

theorem matchScales_ne (l : List Char) (p : Scale × Scale)
    (h : matchScales l = some p) : p.1 ≠ p.2 := by
  unfold matchScales at h
  split_ifs at h <;> simp only [Option.some_inj] at h <;> subst h <;> simp

theorem matchScales_shape (l : List Char) (p : Scale × Scale)
    (h : matchScales l = some p) : ∃ a b, l = [a, b] := by
  unfold matchScales at h
  split_ifs at h <;> next he => exact ⟨_, _, he⟩

/-- Every successful parse factors through the split, the scale table and
the float parser. -/
theorem fromStr_ok (token : List Char) (T : Temperature)
    (h : fromStr token = some (.ok T)) :
    ∃ pre suf,
      splitAtByte (utf8ListLen (trimList token) - 2)
          ((trimList token).map rustToUpper) = some (pre, suf) ∧
      matchScales suf = some (T.scale, T.convert_to) ∧
      parseF64 pre = some T.value := by
  by_cases h1 : trimList token = []
  · rw [fromStr_empty token h1] at h
    exact absurd h (by simp)
  by_cases h2 : utf8ListLen (trimList token) = 1
  · rw [fromStr_one token h1 h2] at h
    split at h <;> exact absurd h (by simp)
  rw [fromStr_split token h1 h2] at h
  split at h
  · exact absurd h (by simp)
  · rename_i pre suf hs
    refine ⟨pre, suf, hs, ?_⟩
    split at h
    · exact absurd h (by simp)
    · rename_i p hm
      split at h
      · rename_i v hv
        simp only [Option.some_inj, ParseResult.ok.injEq] at h
        subst h
        exact ⟨hm, hv⟩
      · exact absurd h (by simp)

/-! ### Claim theorems -/

/-- Claim C1: for every `Temperature`, `convert` returns exactly the
spec formula for its (source, target) pair, and for any other pair
(the same-scale pairs) it returns the input value unchanged, with no
failure path. -/
theorem claim_C1_convert_follows_spec (t : Temperature) :
    Temperature.convert t = convertSpec t := by
  obtain ⟨v, s, c⟩ := t
  cases s <;> cases c <;> rfl

/-- Claim C7: the documented test vectors hold: `parse "32FC"` succeeds
with value 32, source Fahrenheit, target Celsius and converts to 0;
`parse "36CK"` succeeds and converts to 309.15; `parse "32CF"` succeeds
and converts to 89.6. -/
theorem claim_C7_test_vectors :
    (fromStr ("32FC".toList) =
        some (.ok ⟨.finite 32, .Fahrenheit, .Celsius⟩) ∧
      Temperature.convert ⟨.finite 32, .Fahrenheit, .Celsius⟩ = .finite 0) ∧
    (fromStr ("36CK".toList) =
        some (.ok ⟨.finite 36, .Celsius, .Kelvin⟩) ∧
      Temperature.convert ⟨.finite 36, .Celsius, .Kelvin⟩ =
        .finite (30915 / 100 : ℚ)) ∧
    (fromStr ("32CF".toList) =
        some (.ok ⟨.finite 32, .Celsius, .Fahrenheit⟩) ∧
      Temperature.convert ⟨.finite 32, .Celsius, .Fahrenheit⟩ =
        .finite (896 / 10 : ℚ)) := by
  refine ⟨⟨?_, ?_⟩, ⟨?_, ?_⟩, ⟨?_, ?_⟩⟩
  · have h : fromStr ("32FC".toList) =
        some (.ok ⟨.finite (decimalValue ['3', '2'] [] 0), .Fahrenheit, .Celsius⟩) := rfl
    rw [h]
    norm_num [decimalValue, digitsToNat, show ('3').toNat = 51 from rfl,
      show ('2').toNat = 50 from rfl]
  · norm_num [Temperature.convert, Temperature.f_c, F64.add, F64.mul, F64.div,
      F64.sub, F64.neg]
  · have h : fromStr ("36CK".toList) =
        some (.ok ⟨.finite (decimalValue ['3', '6'] [] 0), .Celsius, .Kelvin⟩) := rfl
    rw [h]
    norm_num [decimalValue, digitsToNat, show ('3').toNat = 51 from rfl,
      show ('6').toNat = 54 from rfl]
  · norm_num [Temperature.convert, Temperature.c_k, Temperature.K, F64.add]
  · have h : fromStr ("32CF".toList) =
        some (.ok ⟨.finite (decimalValue ['3', '2'] [] 0), .Celsius, .Fahrenheit⟩) := rfl
    rw [h]
    norm_num [decimalValue, digitsToNat, show ('3').toNat = 51 from rfl,
      show ('2').toNat = 50 from rfl]
  · norm_num [Temperature.convert, Temperature.c_f, F64.add, F64.mul, F64.div]

/-- Claim C9 fails on the code: `from_str` is not total.  On the token
`"±a"` (three bytes, the first character two bytes wide) the split index
`len - 2 = 1` falls inside the character `±`, and `str::split_at`
panics; the model returns `none` (= panic) instead of a `Result`. -/
theorem claim_C9_panic_on_non_boundary : fromStr ("±a".toList) = none := by
  decide

/-- Claim C10: the numeric prefix uses the host float grammar, so
non-finite spellings are accepted: `parse "infCF"` succeeds with value
`+∞` and `parse "nanKC"` succeeds with a NaN value. -/
theorem claim_C10_nonfinite_accepted :
    fromStr ("infCF".toList) = some (.ok ⟨.inf, .Celsius, .Fahrenheit⟩) ∧
    fromStr ("nanKC".toList) = some (.ok ⟨.nan, .Kelvin, .Celsius⟩) := by
  constructor <;> decide

/-- Claim C4: every successfully parsed `Temperature` has source scale
distinct from target scale. -/
theorem claim_C4_scales_distinct (s : List Char) (T : Temperature)
    (h : fromStr s = some (.ok T)) : T.scale ≠ T.convert_to := by
  obtain ⟨pre, suf, -, hm, -⟩ := fromStr_ok s T h
  exact matchScales_ne suf _ hm

theorem claim_C4_scales_distinct_witness :
    Temperature.scale ⟨.inf, .Celsius, .Fahrenheit⟩ ≠
      Temperature.convert_to ⟨.inf, .Celsius, .Fahrenheit⟩ :=
  claim_C4_scales_distinct ("infCF".toList) ⟨.inf, .Celsius, .Fahrenheit⟩
    (by decide)

/-- Claim C5 as stated is false on the code: with value NaN (reachable,
e.g. from `parse "nanKC"`) the round trip through the pair
Celsius→Fahrenheit returns NaN, which is not within any tolerance of the
original under IEEE comparison semantics. -/
theorem claim_C5_counterexample :
    Scale.Celsius ≠ Scale.Fahrenheit ∧
    approxEq (roundTrip .Celsius .Fahrenheit .nan) .nan
      (1 / 1000000000 : ℚ) = false := by
  constructor <;> decide

theorem roundTrip_finite_eq (a b : Scale) (h : a ≠ b) (q : ℚ) :
    roundTrip a b (.finite q) = .finite q := by
  cases a <;> cases b <;> try exact absurd rfl h
  all_goals
    simp only [roundTrip, Temperature.convert, Temperature.c_f, Temperature.f_c,
      Temperature.c_k, Temperature.K, F64.sub, F64.neg, F64.add, F64.mul, F64.div]
    norm_num

/-- Claim C5, amended: for all six scale pairs, the program's two
conversion formulas are exact mutual inverses — converting a finite
value with a pair and then with the inverse pair returns the original
value EXACTLY, in exact-rational arithmetic.  This is the algebraic
content of the round-trip claim; no tolerance bound on the program's
`f64` arithmetic is asserted, because IEEE rounding is outside the
model (and a uniform `1e-9` bound is in fact false for large doubles),
and the non-finite values fail any tolerance (see the
counterexample). -/
theorem claim_C5_roundtrip_exact (a b : Scale) (h : a ≠ b) (q : ℚ) :
    roundTrip a b (.finite q) = .finite q :=
  roundTrip_finite_eq a b h q

theorem claim_C5_roundtrip_exact_witness :
    roundTrip .Celsius .Fahrenheit (.finite 32) = .finite 32 :=
  claim_C5_roundtrip_exact .Celsius .Fahrenheit (by decide) 32

theorem fromStr_split_some (token pre suf : List Char)
    (h1 : trimList token ≠ []) (h2 : utf8ListLen (trimList token) ≠ 1)
    (hs : splitAtByte (utf8ListLen (trimList token) - 2)
        ((trimList token).map rustToUpper) = some (pre, suf)) :
    fromStr token =
      match matchScales suf with
      | none => some (.err .ScaleUnknown)
      | some p =>
          match parseF64 pre with
          | some v => some (.ok ⟨v, p.1, p.2⟩)
          | none => some (.err .NotNumeric) := by
  rw [fromStr_split token h1 h2, hs]

theorem fromStr_split_nomatch (token pre suf : List Char)
    (h1 : trimList token ≠ []) (h2 : utf8ListLen (trimList token) ≠ 1)
    (hs : splitAtByte (utf8ListLen (trimList token) - 2)
        ((trimList token).map rustToUpper) = some (pre, suf))
    (hm : matchScales suf = none) :
    fromStr token = some (.err .ScaleUnknown) := by
  rw [fromStr_split_some token pre suf h1 h2 hs, hm]

/-- Claim C3: the empty trimmed token fails with `Inconvertible`; a
one-byte trimmed token fails with `ScaleUnknown` when it parses as a
float and with `NotNumeric` otherwise. -/
theorem claim_C3_trivial_tokens (s : List Char) :
    (trimList s = [] → fromStr s = some (.err .Inconvertible)) ∧
    (utf8ListLen (trimList s) = 1 →
      ((parseF64 (trimList s)).isSome →
          fromStr s = some (.err .ScaleUnknown)) ∧
      (parseF64 (trimList s) = none →
          fromStr s = some (.err .NotNumeric))) := by
  constructor
  · exact fromStr_empty s
  · intro h2
    have h1 : trimList s ≠ [] := by
      intro he
      rw [he] at h2
      simp [utf8ListLen] at h2
    rw [fromStr_one s h1 h2]
    constructor
    · intro hsome
      obtain ⟨v, hv⟩ := Option.isSome_iff_exists.mp hsome
      rw [hv]
    · intro hnone
      rw [hnone]

theorem claim_C3_trivial_tokens_witness :
    fromStr ("".toList) = some (.err .Inconvertible) ∧
    fromStr ("5".toList) = some (.err .ScaleUnknown) ∧
    fromStr ("X".toList) = some (.err .NotNumeric) :=
  ⟨(claim_C3_trivial_tokens ("".toList)).1 (by decide),
   ((claim_C3_trivial_tokens ("5".toList)).2 (by decide)).1 (by decide),
   ((claim_C3_trivial_tokens ("X".toList)).2 (by decide)).2 (by decide)⟩

/-- Claim C8: a trimmed token of two bytes whose upper-cased form is one
of the six scale pairs fails with `NotNumeric` (empty numeric prefix),
and no token whose trimmed form is under three bytes ever parses
successfully. -/
theorem claim_C8_min_length (s : List Char) :
    (utf8ListLen (trimList s) = 2 →
      (matchScales ((trimList s).map rustToUpper)).isSome →
      fromStr s = some (.err .NotNumeric)) ∧
    (utf8ListLen (trimList s) < 3 →
      ∀ T : Temperature, fromStr s ≠ some (.ok T)) := by
  constructor
  · intro h2 hpair
    have h1 : trimList s ≠ [] := by
      intro he
      rw [he] at h2
      simp [utf8ListLen] at h2
    have hne1 : utf8ListLen (trimList s) ≠ 1 := by omega
    have hs : splitAtByte (utf8ListLen (trimList s) - 2)
        ((trimList s).map rustToUpper) =
          some ([], (trimList s).map rustToUpper) := by
      rw [h2]
      exact splitAtByte_zero _
    obtain ⟨p, hp⟩ := Option.isSome_iff_exists.mp hpair
    rw [fromStr_split_some s [] ((trimList s).map rustToUpper) h1 hne1 hs, hp]
    rfl
  · intro h3 T hok
    obtain ⟨pre, suf, hs, hm, hv⟩ := fromStr_ok s T hok
    obtain ⟨heq, hplen⟩ := splitAtByte_eq _ _ _ _ hs
    obtain ⟨a, b, rfl⟩ := matchScales_shape suf _ hm
    have hsuf : 2 ≤ utf8ListLen [a, b] := by
      rw [utf8ListLen_cons, utf8ListLen_cons, utf8ListLen_nil]
      have := utf8Len_pos a
      have := utf8Len_pos b
      omega
    have htot : utf8ListLen ((trimList s).map rustToUpper) =
        utf8ListLen pre + utf8ListLen [a, b] := by
      rw [heq, utf8ListLen_append]
    rw [utf8ListLen_map_rustToUpper] at htot
    have hpre : pre = [] := utf8ListLen_eq_zero pre (by omega)
    rw [hpre] at hv
    exact absurd hv (by simp [parseF64, stripSign, parseNumber])

theorem claim_C8_min_length_witness :
    fromStr ("CF".toList) = some (.err .NotNumeric) ∧
    fromStr ("5".toList) ≠ some (.ok ⟨.inf, .Celsius, .Celsius⟩) :=
  ⟨(claim_C8_min_length ("CF".toList)).1 (by decide) (by decide),
   (claim_C8_min_length ("5".toList)).2 (by decide) ⟨.inf, .Celsius, .Celsius⟩⟩

theorem lastTwo_append_two (xs : List Char) (c d : Char) :
    lastTwo (xs ++ [c, d]) = some (c, d) := by
  unfold lastTwo
  rw [List.reverse_append]
  rfl

theorem lastTwo_append_snd (xs : List Char) (c a b : Char)
    (h : lastTwo (xs ++ [c]) = some (a, b)) : b = c := by
  unfold lastTwo at h
  rw [List.reverse_append] at h
  simp only [List.reverse_cons, List.reverse_nil, List.nil_append,
    List.cons_append] at h
  match hr : xs.reverse with
  | [] => rw [hr] at h; exact absurd h (by simp)
  | x :: r =>
      rw [hr] at h
      simp only [Option.some_inj, Prod.mk.injEq] at h
      exact h.2.symm

theorem matchScales_snd_ascii (x y : Char) (p : Scale × Scale)
    (h : matchScales [x, y] = some p) : y.toNat < 0x80 := by
  unfold matchScales at h
  split_ifs at h <;>
    next hc =>
      rw [List.cons.injEq, List.cons.injEq] at hc
      obtain ⟨-, rfl, -⟩ := hc
      decide

theorem matchScales_singleton (c : Char) : matchScales [c] = none := by
  unfold matchScales
  split_ifs <;> first
    | rfl
    | next hc =>
        exfalso
        rw [List.cons.injEq] at hc
        exact List.noConfusion hc.2

/-- Claim C2 as stated is false on the code: the token `"€1"` has a
trimmed form of two characters whose upper-cased last two characters
`('€', '1')` are not one of the six pairs, yet the parse does not fail
with `ScaleUnknown` — it panics, because the byte index `len - 2 = 2`
falls inside the three-byte character `€`. -/
theorem claim_C2_counterexample :
    2 ≤ (trimList ("€1".toList)).length ∧
    lastTwo ((trimList ("€1".toList)).map rustToUpper) = some ('€', '1') ∧
    matchScales ['€', '1'] = none ∧
    fromStr ("€1".toList) ≠ some (.err .ScaleUnknown) ∧
    fromStr ("€1".toList) = none := by
  refine ⟨by decide, by decide, by decide, by decide, by decide⟩

theorem utf8Len_ascii (c : Char) (h : c.toNat < 0x80) : utf8Len c = 1 := by
  unfold utf8Len
  rw [if_pos h]

theorem utf8ListLen_ascii (l : List Char) (h : ∀ c ∈ l, c.toNat < 0x80) :
    utf8ListLen l = l.length := by
  induction l with
  | nil => rfl
  | cons c cs ih =>
      rw [utf8ListLen_cons, utf8Len_ascii c (h c (List.mem_cons_self c cs)),
        ih (fun d hd => h d (List.mem_cons_of_mem c hd)), List.length_cons]
      omega

theorem rustToUpper_ascii (c : Char) (h : c.toNat < 0x80) :
    (rustToUpper c).toNat < 0x80 := by
  rw [toNat_rustToUpper]
  split <;> omega

/-- On an all-ASCII string every byte index up to the length is a
character boundary, so the byte split never panics. -/
theorem splitAtByte_isSome_ascii (l : List Char)
    (h : ∀ c ∈ l, c.toNat < 0x80) (n : Nat) (hn : n ≤ l.length) :
    (splitAtByte n l).isSome := by
  induction l generalizing n with
  | nil =>
      match n with
      | 0 => rfl
      | _ + 1 => simp at hn
  | cons c cs ih =>
      match n with
      | 0 => rfl
      | m + 1 =>
          have hc : utf8Len c = 1 := utf8Len_ascii c (h c (List.mem_cons_self c cs))
          rw [splitAtByte, if_neg (by omega), hc]
          have hrec := ih (fun d hd => h d (List.mem_cons_of_mem c hd)) m
            (by simp at hn; omega)
          obtain ⟨⟨a, b⟩, hab⟩ := Option.isSome_iff_exists.mp hrec
          have he : m + 1 - 1 = m := by omega
          rw [he, hab]
          rfl

/-- Claim C2, amended: restricted to tokens whose trimmed form is ASCII
(there the model of `to_uppercase` is exact, byte positions coincide
with character positions, and the split is always on a character
boundary): for every such token of at least two characters, a
successful parse yields exactly the scale pair recorded for the last
two upper-cased characters, and if those two characters are not one of
the six recognized pairs the parse fails with `ScaleUnknown`,
regardless of the numeric prefix.  Outside ASCII the original claim is
false — see the counterexample, where the parse panics instead of
failing with `ScaleUnknown`. -/
theorem claim_C2_suffix_table (s : List Char) (a b : Char)
    (hascii : ∀ c ∈ trimList s, c.toNat < 0x80)
    (hlen : 2 ≤ (trimList s).length)
    (hlast : lastTwo ((trimList s).map rustToUpper) = some (a, b)) :
    (∀ T : Temperature, fromStr s = some (.ok T) →
        matchScales [a, b] = some (T.scale, T.convert_to)) ∧
    (matchScales [a, b] = none →
        fromStr s = some (.err .ScaleUnknown)) := by
  have h1 : trimList s ≠ [] := by
    intro he
    rw [he] at hlen
    simp at hlen
  have hlb : utf8ListLen (trimList s) = (trimList s).length :=
    utf8ListLen_ascii _ hascii
  have h2 : utf8ListLen (trimList s) ≠ 1 := by omega
  have huascii : ∀ c ∈ (trimList s).map rustToUpper, c.toNat < 0x80 := by
    intro c hc
    rw [List.mem_map] at hc
    obtain ⟨d, hd, rfl⟩ := hc
    exact rustToUpper_ascii d (hascii d hd)
  have hsplit : (splitAtByte (utf8ListLen (trimList s) - 2)
      ((trimList s).map rustToUpper)).isSome := by
    apply splitAtByte_isSome_ascii _ huascii
    rw [List.length_map]
    omega
  obtain ⟨⟨pre, suf⟩, hs⟩ := Option.isSome_iff_exists.mp hsplit
  obtain ⟨heq, hplen⟩ := splitAtByte_eq _ _ _ _ hs
  have htot : utf8ListLen ((trimList s).map rustToUpper) =
      utf8ListLen (trimList s) := utf8ListLen_map_rustToUpper _
  have hsuflen : utf8ListLen suf = 2 := by
    have hc := congrArg utf8ListLen heq
    rw [utf8ListLen_append, htot, hplen] at hc
    omega
  rcases utf8ListLen_two suf hsuflen with ⟨c₁, c₂, rfl, -, -⟩ | ⟨c, rfl, hc2⟩
  · have hl2 : lastTwo ((trimList s).map rustToUpper) = some (c₁, c₂) := by
      rw [heq]
      exact lastTwo_append_two pre c₁ c₂
    rw [hl2] at hlast
    simp only [Option.some_inj, Prod.mk.injEq] at hlast
    obtain ⟨rfl, rfl⟩ := hlast
    constructor
    · intro T hok
      obtain ⟨pre', suf', hs', hm', hv'⟩ := fromStr_ok s T hok
      rw [hs] at hs'
      simp only [Option.some_inj, Prod.mk.injEq] at hs'
      obtain ⟨rfl, rfl⟩ := hs'
      exact hm'
    · intro hm
      exact fromStr_split_nomatch s pre [c₁, c₂] h1 h2 hs hm
  · exfalso
    have hcmem : c ∈ (trimList s).map rustToUpper := by
      rw [heq]
      simp
    have := huascii c hcmem
    rw [utf8Len_ascii c this] at hc2
    omega

theorem claim_C2_suffix_table_witness :
    fromStr ("10CC".toList) = some (.err .ScaleUnknown) :=
  (claim_C2_suffix_table ("10CC".toList) 'C' 'C' (by decide) (by decide)
    (by decide)).2 (by decide)

theorem rustToUpper_case (a b : Char) (h : rustToUpper a = rustToUpper b) :
    a = b ∨
      ((0x41 ≤ a.toNat ∧ a.toNat ≤ 0x5a ∨ 0x61 ≤ a.toNat ∧ a.toNat ≤ 0x7a) ∧
       (0x41 ≤ b.toNat ∧ b.toNat ≤ 0x5a ∨ 0x61 ≤ b.toNat ∧ b.toNat ≤ 0x7a)) := by
  have ht := congrArg Char.toNat h
  rw [toNat_rustToUpper, toNat_rustToUpper] at ht
  by_cases ha : 0x61 ≤ a.toNat ∧ a.toNat ≤ 0x7a <;>
    by_cases hb : 0x61 ≤ b.toNat ∧ b.toNat ≤ 0x7a
  · exact Or.inr ⟨Or.inr ha, Or.inr hb⟩
  · rw [if_pos ha, if_neg hb] at ht
    exact Or.inr ⟨Or.inr ha, Or.inl (by omega)⟩
  · rw [if_neg ha, if_pos hb] at ht
    exact Or.inr ⟨Or.inl (by omega), Or.inr hb⟩
  · rw [if_neg ha, if_neg hb] at ht
    exact Or.inl (charEq_of_toNat a b ht)

theorem isRustWhitespace_letter (c : Char)
    (h : 0x41 ≤ c.toNat ∧ c.toNat ≤ 0x5a ∨ 0x61 ≤ c.toNat ∧ c.toNat ≤ 0x7a) :
    isRustWhitespace c = false := by
  simp only [isRustWhitespace, Bool.or_eq_false_iff, Bool.and_eq_false_iff,
    decide_eq_false_iff_not]
  omega

theorem ws_of_caseEq (a b : Char) (h : rustToUpper a = rustToUpper b) :
    isRustWhitespace a = isRustWhitespace b := by
  rcases rustToUpper_case a b h with rfl | ⟨ha, hb⟩
  · rfl
  · rw [isRustWhitespace_letter a ha, isRustWhitespace_letter b hb]

theorem utf8Len_of_caseEq (a b : Char) (h : rustToUpper a = rustToUpper b) :
    utf8Len a = utf8Len b := by
  rcases rustToUpper_case a b h with rfl | ⟨ha, hb⟩
  · rfl
  · unfold utf8Len
    rw [if_pos (by omega : a.toNat < 0x80), if_pos (by omega : b.toNat < 0x80)]

theorem forall₂_dropWhile (R : Char → Char → Prop) (p : Char → Bool)
    (hp : ∀ a b, R a b → p a = p b) (l l' : List Char)
    (h : List.Forall₂ R l l') :
    List.Forall₂ R (l.dropWhile p) (l'.dropWhile p) := by
  induction h with
  | nil => exact List.Forall₂.nil
  | cons hr hrest ih =>
      rename_i a b as bs
      rw [List.dropWhile_cons, List.dropWhile_cons, ← hp a b hr]
      by_cases hpa : p a
      · rw [if_pos hpa, if_pos hpa]
        exact ih
      · rw [if_neg hpa, if_neg hpa]
        exact List.Forall₂.cons hr hrest

theorem caseEquiv_trim (s t : List Char) (h : caseEquiv s t) :
    caseEquiv (trimList s) (trimList t) := by
  unfold caseEquiv at h ⊢
  unfold trimList
  exact List.rel_reverse
    (forall₂_dropWhile _ isRustWhitespace (fun a b hr => ws_of_caseEq a b hr) _ _
      (List.rel_reverse
        (forall₂_dropWhile _ isRustWhitespace (fun a b hr => ws_of_caseEq a b hr) _ _ h)))

theorem caseEquiv_map_eq (s t : List Char) (h : caseEquiv s t) :
    s.map rustToUpper = t.map rustToUpper := by
  induction h with
  | nil => rfl
  | cons hr hrest ih => simp only [List.map_cons, hr, ih]

theorem caseEquiv_utf8ListLen (s t : List Char) (h : caseEquiv s t) :
    utf8ListLen s = utf8ListLen t := by
  induction h with
  | nil => rfl
  | cons hr hrest ih =>
      rename_i a b as bs
      rw [utf8ListLen_cons, utf8ListLen_cons, ih, utf8Len_of_caseEq a b hr]

theorem utf8ListLen_one (l : List Char) (h : utf8ListLen l = 1) :
    ∃ c, l = [c] := by
  match l with
  | [] => simp [utf8ListLen] at h
  | [c] => exact ⟨c, rfl⟩
  | c₁ :: c₂ :: r =>
      exfalso
      rw [utf8ListLen_cons, utf8ListLen_cons] at h
      have := utf8Len_pos c₁
      have := utf8Len_pos c₂
      omega

theorem parseNumber_single_nondigit (c : Char) (hd : isDigitC c = false)
    (hdot : c ≠ '.') : parseNumber [c] = none := by
  unfold parseNumber
  simp only [List.takeWhile_cons, List.dropWhile_cons, hd, ite_false,
    Bool.false_eq_true]
  split
  · next r heq =>
      rw [List.cons.injEq] at heq
      exact absurd heq.1 hdot
  · rfl

theorem parseF64_single_letter (c : Char)
    (h : 0x41 ≤ c.toNat ∧ c.toNat ≤ 0x5a ∨ 0x61 ≤ c.toNat ∧ c.toNat ≤ 0x7a) :
    parseF64 [c] = none := by
  have hminus : ¬(c = '-') := by
    intro he
    rw [he] at h
    revert h
    decide
  have hplus : ¬(c = '+') := by
    intro he
    rw [he] at h
    revert h
    decide
  have hdot : ¬(c = '.') := by
    intro he
    rw [he] at h
    revert h
    decide
  have hd : isDigitC c = false := by
    simp only [isDigitC, Bool.and_eq_false_iff, decide_eq_false_iff_not]
    omega
  unfold parseF64 stripSign
  simp only [if_neg hminus, if_neg hplus]
  rw [if_neg ?notinf]
  case notinf =>
    intro hor
    rcases hor with hi | hi <;> simp at hi
  rw [if_neg ?notnan]
  case notnan =>
    intro hn
    simp at hn
  rw [parseNumber_single_nondigit c hd hdot]
  rfl

/-- Claim C6: parsing is case-insensitive in the letters: tokens that
agree up to ASCII case parse to the same result (same fields on
success, same error on failure, and the same panic behaviour). -/
theorem claim_C6_case_insensitive (s t : List Char) (h : caseEquiv s t) :
    fromStr s = fromStr t := by
  have htr : caseEquiv (trimList s) (trimList t) := caseEquiv_trim s t h
  have hlen : utf8ListLen (trimList s) = utf8ListLen (trimList t) :=
    caseEquiv_utf8ListLen _ _ htr
  by_cases he : trimList s = []
  · have het : trimList t = [] := by
      have hl := List.Forall₂.length_eq htr
      rw [he] at hl
      exact List.length_eq_zero.mp hl.symm ▸ rfl
    rw [fromStr_empty s he, fromStr_empty t het]
  · have het : trimList t ≠ [] := by
      intro hh
      apply he
      have hl := List.Forall₂.length_eq htr
      rw [hh] at hl
      exact List.length_eq_zero.mp hl
    by_cases h1 : utf8ListLen (trimList s) = 1
    · rw [fromStr_one s he h1, fromStr_one t het (by omega)]
      obtain ⟨a, ha⟩ := utf8ListLen_one _ h1
      obtain ⟨b, hb⟩ := utf8ListLen_one _ (by omega : utf8ListLen (trimList t) = 1)
      rw [ha, hb]
      rw [ha, hb] at htr
      have hr : rustToUpper a = rustToUpper b := by
        cases htr with
        | cons h1 h2 => exact h1
      rcases rustToUpper_case a b hr with rfl | ⟨hla, hlb⟩
      · rfl
      · rw [parseF64_single_letter a hla, parseF64_single_letter b hlb]
    · rw [fromStr_split s he h1, fromStr_split t het (by omega)]
      rw [caseEquiv_map_eq _ _ htr, hlen]

theorem claim_C6_case_insensitive_witness :
    fromStr ("32fc".toList) = fromStr ("32FC".toList) :=
  claim_C6_case_insensitive ("32fc".toList) ("32FC".toList) (by
    show List.Forall₂ _ ['3', '2', 'f', 'c'] ['3', '2', 'F', 'C']
    refine List.Forall₂.cons (by decide) ?_
    refine List.Forall₂.cons (by decide) ?_
    refine List.Forall₂.cons (by decide) ?_
    refine List.Forall₂.cons (by decide) ?_
    exact List.Forall₂.nil)

theorem claim_C1_convert_follows_spec_witness :
    Temperature.convert ⟨.finite 32, .Celsius, .Fahrenheit⟩ =
      convertSpec ⟨.finite 32, .Celsius, .Fahrenheit⟩ :=
  claim_C1_convert_follows_spec ⟨.finite 32, .Celsius, .Fahrenheit⟩
